import Mathlib

/-!
# Verification of `matterfold/mofs/ligand_metal_docking.py`

A shallow embedding of the ligand-metal docking core
(`src/matterfold/mofs/ligand_metal_docking.py`) and proofs about it.

Modelling conventions:
* 3-vectors of real numbers stand for numpy 3-vectors of floats; an ASE
  `Atoms` object is an ordered list of species labels plus an ordered list of
  positions.
* The two `scipy.optimize.minimize` calls and the `scipy.spatial.ConvexHull`
  call are external numerical routines; they are modelled as an `Oracles`
  record.  The two optimizers receive the seed and the objective function
  exactly as in the source and return an arbitrary result; the convex hull
  returns either the list of facets (`hull.simplices`, a list of index lists)
  or `none`, modelling Qhull's exception on degenerate input.
* All other computations (centroids, direction vectors, rotation matrices,
  distance checks, structure assembly) are embedded directly.
-/

namespace Matterfold

/-- A 3-dimensional real vector (a row of a numpy `(n, 3)` position array). -/
@[ext]
structure Vec3 where
  x : ℝ
  y : ℝ
  z : ℝ

namespace Vec3

noncomputable instance : Add Vec3 := ⟨fun a b => ⟨a.x + b.x, a.y + b.y, a.z + b.z⟩⟩
noncomputable instance : Sub Vec3 := ⟨fun a b => ⟨a.x - b.x, a.y - b.y, a.z - b.z⟩⟩
noncomputable instance : Neg Vec3 := ⟨fun a => ⟨-a.x, -a.y, -a.z⟩⟩
instance : Zero Vec3 := ⟨⟨0, 0, 0⟩⟩
noncomputable instance : SMul ℝ Vec3 := ⟨fun s a => ⟨s * a.x, s * a.y, s * a.z⟩⟩

@[simp] theorem add_x (a b : Vec3) : (a + b).x = a.x + b.x := rfl
@[simp] theorem add_y (a b : Vec3) : (a + b).y = a.y + b.y := rfl
@[simp] theorem add_z (a b : Vec3) : (a + b).z = a.z + b.z := rfl
@[simp] theorem sub_x (a b : Vec3) : (a - b).x = a.x - b.x := rfl
@[simp] theorem sub_y (a b : Vec3) : (a - b).y = a.y - b.y := rfl
@[simp] theorem sub_z (a b : Vec3) : (a - b).z = a.z - b.z := rfl
@[simp] theorem smul_x (s : ℝ) (a : Vec3) : (s • a).x = s * a.x := rfl
@[simp] theorem smul_y (s : ℝ) (a : Vec3) : (s • a).y = s * a.y := rfl
@[simp] theorem smul_z (s : ℝ) (a : Vec3) : (s • a).z = s * a.z := rfl
@[simp] theorem zero_x : (0 : Vec3).x = 0 := rfl
@[simp] theorem zero_y : (0 : Vec3).y = 0 := rfl
@[simp] theorem zero_z : (0 : Vec3).z = 0 := rfl
@[simp] theorem mk_x (a b c : ℝ) : (Vec3.mk a b c).x = a := rfl
@[simp] theorem mk_y (a b c : ℝ) : (Vec3.mk a b c).y = b := rfl
@[simp] theorem mk_z (a b c : ℝ) : (Vec3.mk a b c).z = c := rfl

end Vec3

/-- Squared Euclidean norm of a 3-vector. -/
noncomputable def normSq (v : Vec3) : ℝ := v.x ^ 2 + v.y ^ 2 + v.z ^ 2

/-- Euclidean norm (`np.linalg.norm` of one 3-vector). -/
noncomputable def vnorm (v : Vec3) : ℝ := Real.sqrt (normSq v)

/-- Euclidean distance between two points (`np.linalg.norm(p - q)`). -/
noncomputable def vdist (p q : Vec3) : ℝ := vnorm (p - q)

theorem normSq_nonneg (v : Vec3) : 0 ≤ normSq v := by
  have hx := sq_nonneg v.x
  have hy := sq_nonneg v.y
  have hz := sq_nonneg v.z
  unfold normSq; linarith

theorem vnorm_nonneg (v : Vec3) : 0 ≤ vnorm v := Real.sqrt_nonneg _

/-- Comparing a Euclidean norm against a positive bound is the same as
comparing the squared norm against the squared bound (used to evaluate the
program's distance checks on concrete inputs). -/
theorem vnorm_lt_iff (v : Vec3) {b : ℝ} (hb : 0 < b) :
    vnorm v < b ↔ normSq v < b ^ 2 := by
  unfold vnorm
  exact Real.sqrt_lt' hb

theorem vdist_lt_iff (p q : Vec3) {b : ℝ} (hb : 0 < b) :
    vdist p q < b ↔ normSq (p - q) < b ^ 2 := vnorm_lt_iff _ hb

/-- A 3×3 real matrix, written out entrywise as in the source's explicit
rotation matrices. -/
@[ext]
structure Mat3 where
  m11 : ℝ
  m12 : ℝ
  m13 : ℝ
  m21 : ℝ
  m22 : ℝ
  m23 : ℝ
  m31 : ℝ
  m32 : ℝ
  m33 : ℝ

/-- Matrix product (`A @ B`). -/
noncomputable def matMul (A B : Mat3) : Mat3 :=
  ⟨A.m11 * B.m11 + A.m12 * B.m21 + A.m13 * B.m31,
   A.m11 * B.m12 + A.m12 * B.m22 + A.m13 * B.m32,
   A.m11 * B.m13 + A.m12 * B.m23 + A.m13 * B.m33,
   A.m21 * B.m11 + A.m22 * B.m21 + A.m23 * B.m31,
   A.m21 * B.m12 + A.m22 * B.m22 + A.m23 * B.m32,
   A.m21 * B.m13 + A.m22 * B.m23 + A.m23 * B.m33,
   A.m31 * B.m11 + A.m32 * B.m21 + A.m33 * B.m31,
   A.m31 * B.m12 + A.m32 * B.m22 + A.m33 * B.m32,
   A.m31 * B.m13 + A.m32 * B.m23 + A.m33 * B.m33⟩

/-- Matrix-vector product.  The source applies rotations as
`np.dot(rows, R.T)`, i.e. each row vector `v` becomes `R v`. -/
noncomputable def mulVec (A : Mat3) (v : Vec3) : Vec3 :=
  ⟨A.m11 * v.x + A.m12 * v.y + A.m13 * v.z,
   A.m21 * v.x + A.m22 * v.y + A.m23 * v.z,
   A.m31 * v.x + A.m32 * v.y + A.m33 * v.z⟩

/-- Rotation about the x-axis by `θ` (source lines 82-84 / 136-138). -/
noncomputable def RxM (θ : ℝ) : Mat3 :=
  ⟨1, 0, 0,
   0, Real.cos θ, -Real.sin θ,
   0, Real.sin θ, Real.cos θ⟩

/-- Rotation about the y-axis by `θ` (source lines 85-87 / 139-141). -/
noncomputable def RyM (θ : ℝ) : Mat3 :=
  ⟨Real.cos θ, 0, Real.sin θ,
   0, 1, 0,
   -Real.sin θ, 0, Real.cos θ⟩

/-- Rotation about the z-axis by `θ` (source lines 88-90 / 142-144). -/
noncomputable def RzM (θ : ℝ) : Mat3 :=
  ⟨Real.cos θ, -Real.sin θ, 0,
   Real.sin θ, Real.cos θ, 0,
   0, 0, 1⟩

/-- The composed rotation `R = Rz @ Ry @ Rx` (source lines 91 / 145). -/
noncomputable def Rmat (θx θy θz : ℝ) : Mat3 :=
  matMul (RzM θz) (matMul (RyM θy) (RxM θx))

/-- Rotation of a point about a center:
`np.dot(positions - center, R.T) + center` (source lines 93-96 / 147-150). -/
noncomputable def rotateAbout (R : Mat3) (center p : Vec3) : Vec3 :=
  mulVec R (p - center) + center

theorem mulVec_matMul (A B : Mat3) (v : Vec3) :
    mulVec (matMul A B) v = mulVec A (mulVec B v) := by
  unfold mulVec matMul
  ext <;> dsimp <;> ring

theorem mulVec_sub (A : Mat3) (u w : Vec3) :
    mulVec A (u - w) = mulVec A u - mulVec A w := by
  unfold mulVec
  ext <;> dsimp <;> ring

theorem normSq_mulVec_RxM (θ : ℝ) (v : Vec3) :
    normSq (mulVec (RxM θ) v) = normSq v := by
  have h := Real.sin_sq_add_cos_sq θ
  unfold normSq mulVec RxM
  dsimp
  nlinarith [h]

theorem normSq_mulVec_RyM (θ : ℝ) (v : Vec3) :
    normSq (mulVec (RyM θ) v) = normSq v := by
  have h := Real.sin_sq_add_cos_sq θ
  unfold normSq mulVec RyM
  dsimp
  nlinarith [h]

theorem normSq_mulVec_RzM (θ : ℝ) (v : Vec3) :
    normSq (mulVec (RzM θ) v) = normSq v := by
  have h := Real.sin_sq_add_cos_sq θ
  unfold normSq mulVec RzM
  dsimp
  nlinarith [h]

/-- The composed Euler rotation preserves squared norms. -/
theorem normSq_mulVec_Rmat (θx θy θz : ℝ) (v : Vec3) :
    normSq (mulVec (Rmat θx θy θz) v) = normSq v := by
  unfold Rmat
  rw [mulVec_matMul, mulVec_matMul, normSq_mulVec_RzM, normSq_mulVec_RyM,
    normSq_mulVec_RxM]

/-- Rotation about a center is a rigid motion: pairwise distances are
preserved. -/
theorem vdist_rotateAbout (R : Mat3) (hR : ∀ v, normSq (mulVec R v) = normSq v)
    (center p q : Vec3) : vdist (rotateAbout R center p) (rotateAbout R center q) = vdist p q := by
  unfold vdist vnorm rotateAbout
  have h1 : mulVec R (p - center) + center - (mulVec R (q - center) + center)
      = mulVec R (p - q) := by
    unfold mulVec
    ext <;> dsimp <;> ring
  rw [h1, hR]

/-- The center of a rotation about a center is a fixed point. -/
theorem rotateAbout_center (R : Mat3) (center : Vec3) :
    rotateAbout R center center = center := by
  unfold rotateAbout
  have h : center - center = (0 : Vec3) := by ext <;> dsimp <;> ring
  rw [h]
  unfold mulVec
  ext <;> dsimp <;> ring

/-! ## The data model: ASE `Atoms` and list helpers -/

/-- An ASE `Atoms` object: an ordered list of species labels (atomic numbers)
and an ordered list of positions.  `ligand.copy()` is the identity on this
value-level model; the object-level copying discipline is modelled separately
by the store semantics below. -/
structure Atoms where
  symbols : List ℕ
  positions : List Vec3

/-- Read one row of a position array (总 0-based numpy indexing). -/
def getPos (ps : List Vec3) (i : ℕ) : Vec3 := ps.getD i 0

/-- `np.mean(ps, axis=0)`.  (For the empty list real division by zero yields
the zero vector; the source never takes the mean of an empty non-site list
thanks to the explicit guard, and an empty bonding site is outside the
caller's documented input domain.) -/
noncomputable def centroid (ps : List Vec3) : Vec3 :=
  ((1 : ℝ) / ps.length) • (ps.foldr (· + ·) 0)

/-- `np.min` of a list of reals (`np.min` of a nonempty numpy array; the
empty case, on which numpy raises, is given the junk value 0). -/
noncomputable def minD : List ℝ → ℝ
  | [] => 0
  | x :: xs => xs.foldl min x

theorem foldl_min_le_init (l : List ℝ) (a : ℝ) : l.foldl min a ≤ a := by
  induction l generalizing a with
  | nil => exact le_refl _
  | cons c u ih => exact le_trans (ih (min a c)) (min_le_left _ _)

theorem foldl_min_le {l : List ℝ} {x : ℝ} (a : ℝ) (hx : x ∈ l) : l.foldl min a ≤ x := by
  induction l generalizing a with
  | nil => cases hx
  | cons b t ih =>
    rcases List.mem_cons.mp hx with rfl | hx'
    · exact le_trans (foldl_min_le_init t (min a x)) (min_le_right _ _)
    · exact ih _ hx'

/-- `minD` is a lower bound of every member of the list. -/
theorem minD_le {l : List ℝ} {x : ℝ} (hx : x ∈ l) : minD l ≤ x := by
  cases l with
  | nil => cases hx
  | cons b t =>
    simp only [minD]
    rcases List.mem_cons.mp hx with rfl | hx'
    · exact foldl_min_le_init t _
    · exact foldl_min_le _ hx'

/-! ## Site Geometry Extractor (source lines 36-54) -/

/-- `site_positions = ligand_positions[site_indices]` (line 38). -/
def sitePositions (ligPos : List Vec3) (site : List ℕ) : List Vec3 :=
  site.map (getPos ligPos)

/-- `site_centroid = np.mean(site_positions, axis=0)` (line 39). -/
noncomputable def siteCentroid (ligPos : List Vec3) (site : List ℕ) : Vec3 :=
  centroid (sitePositions ligPos site)

/-- `non_site_indices = [i for i in range(len(ligand)) if i not in site_indices]`
(line 43). -/
def nonSiteIndices (ligPos : List Vec3) (site : List ℕ) : List ℕ :=
  (List.range ligPos.length).filter (fun i => ¬ i ∈ site)

/-- The epsilon of the degenerate-direction guard (`1e-10`, line 51). -/
noncomputable def dirEps : ℝ := 1 / 10 ^ 10

/-- The raw (unnormalized) direction vector `site_centroid - non_site_centroid`
(line 49). -/
noncomputable def rawDirection (ligPos : List Vec3) (site : List ℕ) : Vec3 :=
  siteCentroid ligPos site - centroid ((nonSiteIndices ligPos site).map (getPos ligPos))

/-- The direction vector of lines 43-54: the Z axis if the site covers every
ligand atom or the centroid difference is shorter than `1e-10`, otherwise the
normalized centroid difference. -/
noncomputable def directionVector (ligPos : List Vec3) (site : List ℕ) : Vec3 :=
  if nonSiteIndices ligPos site = [] then ⟨0, 0, 1⟩
  else
    let dv := rawDirection ligPos site
    if vnorm dv < dirEps then ⟨0, 0, 1⟩
    else ((1 : ℝ) / vnorm dv) • dv

/-! ## The two optimization objectives (source lines 57-60 and 80-124) -/

/-- `position_objective_function` (lines 57-60): the summed squared deviation
of the distances from the site atoms to `site_centroid + s * direction` from
the target bond distance. -/
noncomputable def position_objective_function (sitePos : List Vec3) (cen dir : Vec3)
    (bond : ℝ) (s : ℝ) : ℝ :=
  ((sitePos.map (fun p => (vnorm (p - (cen + s • dir)) - bond) ^ 2)).sum)

/-- Per-atom minimum distance to the pool used by the rotation objective and
the steric check: the minimum distance to the ligand, further lowered by the
minimum distance to the stacked previous metal positions when the list of
previous instances is nonempty (lines 104-124 and 157-174). -/
noncomputable def pooledMinDist (ligPos : List Vec3) (prevs : List (List Vec3))
    (q : Vec3) : ℝ :=
  match prevs with
  | [] => minD (ligPos.map (vdist q))
  | _ :: _ =>
    min (minD (ligPos.map (vdist q))) (minD (prevs.flatten.map (vdist q)))

/-- `rotation_objective_function` (lines 80-124): the negated total clearance
of the non-coordinating atoms after rotating the translated cluster about the
solved position by the Euler angles. -/
noncomputable def rotation_objective_function (translated : List Vec3) (optimal : Vec3)
    (cIdx : ℕ) (ligPos : List Vec3) (prevs : List (List Vec3))
    (angles : ℝ × ℝ × ℝ) : ℝ :=
  let R := Rmat angles.1 angles.2.1 angles.2.2
  let rotated := translated.map (rotateAbout R optimal)
  let nonCoord := rotated.eraseIdx cIdx;
  -((nonCoord.map (pooledMinDist ligPos prevs)).sum)

/-! ## Coordinating-Atom Selector (source lines 66-69) -/

/-- Insertion of a value into a sorted list (ascending). -/
def insertSorted (x : ℕ) : List ℕ → List ℕ
  | [] => [x]
  | y :: ys => if x ≤ y then x :: y :: ys else y :: insertSorted x ys

/-- Ascending insertion sort on naturals. -/
def sortNat (l : List ℕ) : List ℕ := l.foldr insertSorted []

/-- `np.unique`: sort ascending and drop duplicates. -/
def npUnique (l : List ℕ) : List ℕ := (sortNat l).dedup

/-- `np.unique(hull.simplices.flatten())[0]` (line 69): the first entry of the
sorted deduplicated list of all vertex indices appearing in any hull facet. -/
def selectCoordIdx (simplices : List (List ℕ)) : ℕ :=
  (npUnique simplices.flatten).headD 0

/-! ## The external numerical routines, as oracles -/

/-- The scipy routines used by the source, as an abstract record:

* `posOpt seed obj` models `minimize(obj, seed, method='L-BFGS-B').x[0]`
  for the 1-D position objective (line 63);
* `rotOpt seed obj` models `minimize(obj, seed, method='L-BFGS-B').x`
  for the 3-D rotation objective (lines 128-132);
* `hullSimplices ps` models `ConvexHull(ps).simplices` (line 68), with
  `none` standing for the `QhullError` Qhull raises on degenerate input. -/
structure Oracles where
  posOpt : ℝ → (ℝ → ℝ) → ℝ
  rotOpt : ℝ × ℝ × ℝ → (ℝ × ℝ × ℝ → ℝ) → ℝ × ℝ × ℝ
  hullSimplices : List Vec3 → Option (List (List ℕ))

/-- The scale factor returned by the 1-D optimization (line 63), seeded at
`bond_distance` on the position objective. -/
noncomputable def solvedScale (O : Oracles) (bond : ℝ) (ligPos : List Vec3)
    (site : List ℕ) : ℝ :=
  O.posOpt bond
    (position_objective_function (sitePositions ligPos site)
      (siteCentroid ligPos site) (directionVector ligPos site) bond)

/-- `optimal_position = site_centroid + position_result.x[0] * direction_vector`
(line 64). -/
noncomputable def optimalPosition (O : Oracles) (bond : ℝ) (ligPos : List Vec3)
    (site : List ℕ) : Vec3 :=
  siteCentroid ligPos site + solvedScale O bond ligPos site • directionVector ligPos site

/-- Translation of the metal-center copy so that the coordinating atom lands
on the solved position (lines 76-77). -/
noncomputable def translatedPositions (metalPos : List Vec3) (cIdx : ℕ)
    (optimal : Vec3) : List Vec3 :=
  metalPos.map (fun p => p + (optimal - getPos metalPos cIdx))

/-- The Euler angles returned by the 3-D optimization (lines 127-132), seeded
at the zero angle vector on the rotation objective. -/
noncomputable def optimizedAngles (O : Oracles) (translated : List Vec3) (optimal : Vec3)
    (cIdx : ℕ) (ligPos : List Vec3) (prevs : List (List Vec3)) : ℝ × ℝ × ℝ :=
  O.rotOpt (0, 0, 0)
    (rotation_objective_function translated optimal cIdx ligPos prevs)

/-- The final positions of one cluster instance for one site (lines 72-150):
translate the template copy, then apply the optimized rotation about the
solved position. -/
noncomputable def siteFinalPositions (O : Oracles) (bond : ℝ) (ligPos : List Vec3)
    (metal : Atoms) (prevs : List (List Vec3)) (site : List ℕ)
    (simpl : List (List ℕ)) : List Vec3 :=
  let optimal := optimalPosition O bond ligPos site
  let cIdx := selectCoordIdx simpl
  let translated := translatedPositions metal.positions cIdx optimal
  let a := optimizedAngles O translated optimal cIdx ligPos prevs
  translated.map (rotateAbout (Rmat a.1 a.2.1 a.2.2) optimal)

/-! ## Steric Clash Validator and main loop (source lines 152-184) -/

/-- The non-coordinating rows of the final positions:
`np.delete(np.arange(len(metal_center)), coordinating_atom_index)` applied to
`final_positions` (lines 153-155). -/
noncomputable def siteNonCoord (O : Oracles) (bond : ℝ) (ligPos : List Vec3)
    (metal : Atoms) (prevs : List (List Vec3)) (site : List ℕ)
    (simpl : List (List ℕ)) : List Vec3 :=
  (siteFinalPositions O bond ligPos metal prevs site simpl).eraseIdx
    (selectCoordIdx simpl)

/-- `np.any(min_distances < bond_distance)` (line 176): some non-coordinating
atom of the new instance is strictly closer than the bond distance to the
pooled ligand atoms and previously placed metal positions. -/
noncomputable def ClashAt (bond : ℝ) (ligPos : List Vec3) (prevs : List (List Vec3))
    (nonCoord : List Vec3) : Prop :=
  ∃ q ∈ nonCoord, pooledMinDist ligPos prevs q < bond

/-- The two failure modes of the loop body: a Qhull failure on a degenerate
template, or the `ValueError` of line 177 for a steric clash. -/
inductive DockError where
  | hullError
  | stericClash
deriving DecidableEq

open scoped Classical

/-- One iteration of the loop over bonding sites (lines 36-182), acting on the
accumulator `(combined_structure, previous_metal_positions)`. -/
noncomputable def siteStep (O : Oracles) (bond : ℝ) (ligPos : List Vec3) (metal : Atoms)
    (st : Atoms × List (List Vec3)) (site : List ℕ) :
    Except DockError (Atoms × List (List Vec3)) :=
  match O.hullSimplices metal.positions with
  | none => .error .hullError
  | some simpl =>
    if ClashAt bond ligPos st.2 (siteNonCoord O bond ligPos metal st.2 site simpl)
    then .error .stericClash
    else .ok (⟨st.1.symbols ++ metal.symbols,
               st.1.positions ++ siteFinalPositions O bond ligPos metal st.2 site simpl⟩,
              st.2 ++ [siteNonCoord O bond ligPos metal st.2 site simpl])

/-- The loop over all bonding sites, threading the accumulator. -/
noncomputable def processSites (O : Oracles) (bond : ℝ) (ligPos : List Vec3)
    (metal : Atoms) :
    Atoms × List (List Vec3) → List (List ℕ) →
    Except DockError (Atoms × List (List Vec3))
  | st, [] => .ok st
  | st, site :: rest =>
    match siteStep O bond ligPos metal st site with
    | .error e => .error e
    | .ok st' => processSites O bond ligPos metal st' rest

/-- `ligand_metal_docking` (lines 8-184): start from a copy of the ligand and
an empty accumulator, process each bonding site in caller order, and return
the combined structure (or the first error). -/
noncomputable def ligand_metal_docking (O : Oracles) (ligand metal : Atoms)
    (bonding_sites : List (List ℕ)) (bond : ℝ) : Except DockError Atoms :=
  (processSites O bond ligand.positions metal (ligand, []) bonding_sites).map (·.1)

/-! ## Properties of the coordinating-atom selector's sort -/

theorem mem_insertSorted {a x : ℕ} {l : List ℕ} :
    a ∈ insertSorted x l ↔ a = x ∨ a ∈ l := by
  induction l with
  | nil => simp [insertSorted]
  | cons y ys ih =>
    by_cases h : x ≤ y
    · simp [insertSorted, h]
    · simp only [insertSorted, if_neg h, List.mem_cons, ih]
      tauto

theorem pairwise_insertSorted {x : ℕ} {l : List ℕ}
    (hl : l.Pairwise (· ≤ ·)) : (insertSorted x l).Pairwise (· ≤ ·) := by
  induction l with
  | nil => simp [insertSorted]
  | cons y ys ih =>
    rcases List.pairwise_cons.mp hl with ⟨hy, hys⟩
    by_cases h : x ≤ y
    · rw [insertSorted, if_pos h]
      refine List.pairwise_cons.mpr ⟨?_, hl⟩
      intro a ha
      rcases List.mem_cons.mp ha with rfl | ha'
      · exact h
      · exact le_trans h (hy a ha')
    · rw [insertSorted, if_neg h]
      refine List.pairwise_cons.mpr ⟨?_, ih hys⟩
      intro a ha
      rcases mem_insertSorted.mp ha with rfl | ha'
      · exact le_of_not_le h
      · exact hy a ha'

theorem pairwise_sortNat (l : List ℕ) : (sortNat l).Pairwise (· ≤ ·) := by
  induction l with
  | nil => simp [sortNat]
  | cons y ys ih => exact pairwise_insertSorted ih

theorem mem_sortNat {a : ℕ} {l : List ℕ} : a ∈ sortNat l ↔ a ∈ l := by
  induction l with
  | nil => simp [sortNat]
  | cons y ys ih =>
    simp only [sortNat, List.foldr] at ih ⊢
    rw [mem_insertSorted, ih, List.mem_cons]

theorem mem_npUnique {a : ℕ} {l : List ℕ} : a ∈ npUnique l ↔ a ∈ l := by
  unfold npUnique
  rw [List.mem_dedup, mem_sortNat]

theorem pairwise_npUnique (l : List ℕ) : (npUnique l).Pairwise (· ≤ ·) :=
  (pairwise_sortNat l).sublist (List.dedup_sublist _)

/-- For a nonempty flattened facet list, `selectCoordIdx` is a member of the
flattened list and a lower bound of it: it is the numerically smallest vertex
index occurring in any facet. -/
theorem selectCoordIdx_isMin {simplices : List (List ℕ)}
    (h : simplices.flatten ≠ []) :
    selectCoordIdx simplices ∈ simplices.flatten ∧
      ∀ j ∈ simplices.flatten, selectCoordIdx simplices ≤ j := by
  rcases List.exists_mem_of_ne_nil _ h with ⟨a, ha⟩
  have ha' : a ∈ npUnique simplices.flatten := mem_npUnique.mpr ha
  have hys := pairwise_npUnique simplices.flatten
  unfold selectCoordIdx
  cases hu : npUnique simplices.flatten with
  | nil => rw [hu] at ha'; cases ha'
  | cons b t =>
    rw [hu] at hys
    rcases List.pairwise_cons.mp hys with ⟨hb, _⟩
    constructor
    · have : b ∈ npUnique simplices.flatten := by rw [hu]; exact List.mem_cons_self _ _
      simpa using mem_npUnique.mp this
    · intro j hj
      have hj' : j ∈ npUnique simplices.flatten := mem_npUnique.mpr hj
      rw [hu] at hj'
      rcases List.mem_cons.mp hj' with rfl | hj''
      · simp
      · simpa using hb j hj''

/-! ## Geometric degeneracy of a template (for the convex-hull precondition) -/

/-- The scalar triple product `u · (v × w)`, i.e. the determinant of the
3×3 matrix with rows `u`, `v`, `w`. -/
noncomputable def tripleProd (u v w : Vec3) : ℝ :=
  u.x * (v.y * w.z - v.z * w.y) - u.y * (v.x * w.z - v.z * w.x) +
    u.z * (v.x * w.y - v.y * w.x)

/-- The points of `ps` affinely span all of 3-space: some four of them form a
non-degenerate tetrahedron.  Qhull (hence `scipy.spatial.ConvexHull`) raises
`QhullError` exactly when the input is not full-dimensional — fewer than 4
points, or all points collinear or coplanar make `FullDim3` false. -/
noncomputable def FullDim3 (ps : List Vec3) : Prop :=
  ∃ p0 ∈ ps, ∃ p1 ∈ ps, ∃ p2 ∈ ps, ∃ p3 ∈ ps,
    tripleProd (p1 - p0) (p2 - p0) (p3 - p0) ≠ 0

/-- Any list of points on the z-axis is degenerate. -/
theorem notFullDim3_of_zaxis {ps : List Vec3}
    (h : ∀ p ∈ ps, p.x = 0 ∧ p.y = 0) : ¬ FullDim3 ps := by
  rintro ⟨p0, h0, p1, h1, p2, h2, p3, h3, hne⟩
  apply hne
  obtain ⟨hx0, hy0⟩ := h p0 h0
  obtain ⟨hx1, hy1⟩ := h p1 h1
  obtain ⟨hx2, hy2⟩ := h p2 h2
  obtain ⟨hx3, hy3⟩ := h p3 h3
  unfold tripleProd
  simp only [Vec3.sub_x, Vec3.sub_y, Vec3.sub_z, hx0, hy0, hx1, hy1, hx2, hy2,
    hx3, hy3]
  ring

/-! ## Store semantics: object identity and the no-mutation guarantee

The pure model above works on values, so it cannot talk about mutation of the
caller's objects.  The following small store semantics models Python object
identity: every `Atoms` object is a cell in a store, `ligand.copy()` and
`metal_center.copy()` allocate fresh cells (lines 31 and 72),
`set_positions` and `+=` write to the cell they are called on (lines 180-181),
and the input references are only ever read. -/

/-- A heap of `Atoms` objects, addressed by allocation index. -/
structure Store where
  cells : List Atoms

/-- Dereference (a missing cell dereferences to an empty structure). -/
def readA (σ : Store) (r : ℕ) : Atoms := σ.cells.getD r ⟨[], []⟩

/-- Allocate a fresh cell holding `a`, returning the new store and the fresh
reference. -/
def allocA (σ : Store) (a : Atoms) : Store × ℕ :=
  (⟨σ.cells ++ [a]⟩, σ.cells.length)

/-- Overwrite the cell at `r`. -/
def writeA (σ : Store) (r : ℕ) (a : Atoms) : Store :=
  ⟨σ.cells.set r a⟩

/-- The loop of `ligand_metal_docking` in store semantics.  Each iteration
reads the metal template (line 67), allocates the per-site copy (line 72),
computes the same final positions as the pure model, and on success writes
the copy's positions (line 180) and extends the combined structure's cell
(line 181). -/
noncomputable def dockLoop (O : Oracles) (bond : ℝ) (ligPos : List Vec3)
    (metalRef combRef : ℕ) :
    Store × List (List Vec3) → List (List ℕ) → Store × Except DockError ℕ
  | (σ, _), [] => (σ, .ok combRef)
  | (σ, prevs), site :: rest =>
    let metal := readA σ metalRef
    match O.hullSimplices metal.positions with
    | none => (σ, .error .hullError)
    | some simpl =>
      let alloc := allocA σ metal
      let finals := siteFinalPositions O bond ligPos metal prevs site simpl
      if ClashAt bond ligPos prevs (siteNonCoord O bond ligPos metal prevs site simpl)
      then (alloc.1, .error .stericClash)
      else
        let σw := writeA alloc.1 alloc.2 ⟨metal.symbols, finals⟩
        let comb := readA σw combRef
        let σc := writeA σw combRef
          ⟨comb.symbols ++ metal.symbols, comb.positions ++ finals⟩
        dockLoop O bond ligPos metalRef combRef
          (σc, prevs ++ [siteNonCoord O bond ligPos metal prevs site simpl]) rest

/-- `ligand_metal_docking` in store semantics: the caller passes references
to its ligand and metal-template objects; line 31 allocates the combined
structure as a copy of the ligand; the loop then runs in the store. -/
noncomputable def ligand_metal_docking_store (O : Oracles) (σ0 : Store)
    (ligRef metalRef : ℕ) (bonding_sites : List (List ℕ)) (bond : ℝ) :
    Store × Except DockError ℕ :=
  let lig := readA σ0 ligRef
  let alloc := allocA σ0 lig
  dockLoop O bond lig.positions metalRef alloc.2 (alloc.1, []) bonding_sites

/-! ## Small norm lemmas -/

theorem vnorm_unitZ : vnorm ⟨0, 0, 1⟩ = 1 := by
  unfold vnorm normSq
  norm_num

theorem normSq_smul (s : ℝ) (v : Vec3) : normSq (s • v) = s ^ 2 * normSq v := by
  unfold normSq
  simp only [Vec3.smul_x, Vec3.smul_y, Vec3.smul_z]
  ring

theorem vnorm_smul (s : ℝ) (v : Vec3) : vnorm (s • v) = |s| * vnorm v := by
  unfold vnorm
  rw [normSq_smul, Real.sqrt_mul (sq_nonneg s), Real.sqrt_sq_eq_abs]

theorem dirEps_pos : (0 : ℝ) < dirEps := by
  unfold dirEps
  norm_num

/-- Claim C7: the site-geometry extractor is total and always produces a unit
vector — the Z axis when the site covers every ligand atom or the raw
centroid difference is shorter than `1e-10`, the normalized centroid
difference otherwise. -/
theorem direction_vector_unit_and_fallback (ligPos : List Vec3) (site : List ℕ) :
    vnorm (directionVector ligPos site) = 1 ∧
    (nonSiteIndices ligPos site = [] → directionVector ligPos site = ⟨0, 0, 1⟩) ∧
    (nonSiteIndices ligPos site ≠ [] →
      vnorm (rawDirection ligPos site) < dirEps →
      directionVector ligPos site = ⟨0, 0, 1⟩) ∧
    (nonSiteIndices ligPos site ≠ [] →
      ¬ vnorm (rawDirection ligPos site) < dirEps →
      directionVector ligPos site =
        ((1 : ℝ) / vnorm (rawDirection ligPos site)) • rawDirection ligPos site) := by
  refine ⟨?_, ?_, ?_, ?_⟩
  · unfold directionVector
    by_cases h1 : nonSiteIndices ligPos site = []
    · rw [if_pos h1]; exact vnorm_unitZ
    · rw [if_neg h1]
      by_cases h2 : vnorm (rawDirection ligPos site) < dirEps
      · simp only [if_pos h2]; exact vnorm_unitZ
      · simp only [if_neg h2]
        have hpos : 0 < vnorm (rawDirection ligPos site) :=
          lt_of_lt_of_le dirEps_pos (le_of_not_lt h2)
        rw [vnorm_smul]
        rw [abs_of_pos (by positivity)]
        field_simp
  · intro h1
    unfold directionVector
    rw [if_pos h1]
  · intro h1 h2
    unfold directionVector
    rw [if_neg h1]
    simp only [if_pos h2]
  · intro h1 h2
    unfold directionVector
    rw [if_neg h1]
    simp only [if_neg h2]

/-- Claim C5: with an empty list of bonding sites, the call raises nothing and
returns a structure equal to the input ligand atom-for-atom (the loop body
never runs, so the returned value is the ligand's copy); and in the store
semantics the returned object is the cell freshly allocated by
`ligand.copy()` at line 31 — a reference distinct from the caller's ligand
object, holding the same species and positions. -/
theorem empty_sites_returns_ligand (O : Oracles) (ligand metal : Atoms) (bond : ℝ)
    (σ0 : Store) (ligRef metalRef : ℕ) (h : ligRef < σ0.cells.length) :
    ligand_metal_docking O ligand metal [] bond = .ok ligand ∧
    (ligand_metal_docking_store O σ0 ligRef metalRef [] bond).2 =
      .ok σ0.cells.length ∧
    σ0.cells.length ≠ ligRef ∧
    readA (ligand_metal_docking_store O σ0 ligRef metalRef [] bond).1
      σ0.cells.length = readA σ0 ligRef := by
  refine ⟨rfl, rfl, ne_of_gt h, ?_⟩
  show readA ⟨σ0.cells ++ [readA σ0 ligRef]⟩ σ0.cells.length = readA σ0 ligRef
  unfold readA
  rw [List.getD_append_right _ _ _ _ (le_refl _), Nat.sub_self]
  rfl

/-- Witness for C5 at a concrete one-cell store. -/
theorem empty_sites_returns_ligand_witness :
    ligand_metal_docking ⟨fun s _ => s, fun s _ => s, fun _ => none⟩
      ⟨[6], [⟨0, 0, 0⟩]⟩ ⟨[30], [⟨0, 0, 0⟩]⟩ [] 1 = .ok ⟨[6], [⟨0, 0, 0⟩]⟩ ∧
    (ligand_metal_docking_store ⟨fun s _ => s, fun s _ => s, fun _ => none⟩
        ⟨[⟨[6], [⟨0, 0, 0⟩]⟩]⟩ 0 0 [] 1).2 =
      .ok (Store.cells ⟨[⟨[6], [⟨0, 0, 0⟩]⟩]⟩).length ∧
    (Store.cells ⟨[⟨[6], [⟨0, 0, 0⟩]⟩]⟩).length ≠ 0 ∧
    readA (ligand_metal_docking_store ⟨fun s _ => s, fun s _ => s, fun _ => none⟩
        ⟨[⟨[6], [⟨0, 0, 0⟩]⟩]⟩ 0 0 [] 1).1
      (Store.cells ⟨[⟨[6], [⟨0, 0, 0⟩]⟩]⟩).length =
      readA ⟨[⟨[6], [⟨0, 0, 0⟩]⟩]⟩ 0 :=
  empty_sites_returns_ligand ⟨fun s _ => s, fun s _ => s, fun _ => none⟩
    ⟨[6], [⟨0, 0, 0⟩]⟩ ⟨[30], [⟨0, 0, 0⟩]⟩ 1 ⟨[⟨[6], [⟨0, 0, 0⟩]⟩]⟩ 0 0 (by simp)

/-- Claim C3: the coordinating-atom selector
(`np.unique(hull.simplices.flatten())[0]`, line 69) returns the numerically
smallest atom index among the indices appearing in any hull facet.  It is a
pure function of the facet list alone — the template, hence the facet list,
is the same at every site — so the same index is selected at every site. -/
theorem selectCoordIdx_smallest_hull_index (simplices : List (List ℕ))
    (h : simplices.flatten ≠ []) :
    selectCoordIdx simplices ∈ simplices.flatten ∧
      ∀ j ∈ simplices.flatten, selectCoordIdx simplices ≤ j :=
  selectCoordIdx_isMin h

/-- Witness for C3 at a concrete facet list. -/
theorem selectCoordIdx_smallest_hull_index_witness :
    selectCoordIdx [[2, 1], [3, 1]] ∈ ([[2, 1], [3, 1]] : List (List ℕ)).flatten ∧
      ∀ j ∈ ([[2, 1], [3, 1]] : List (List ℕ)).flatten,
        selectCoordIdx [[2, 1], [3, 1]] ≤ j :=
  selectCoordIdx_smallest_hull_index [[2, 1], [3, 1]] (by decide)

/-! ## C4: the aligner and the optimized rotation form a rigid motion -/

theorem getPos_map_of_lt {f : Vec3 → Vec3} {ps : List Vec3} {i : ℕ}
    (h : i < ps.length) : getPos (ps.map f) i = f (getPos ps i) := by
  unfold getPos
  rw [List.getD_eq_getElem _ _ (by simpa using h), List.getD_eq_getElem _ _ h]
  simp

theorem vdist_translate (t p q : Vec3) : vdist (p + t) (q + t) = vdist p q := by
  unfold vdist vnorm
  have h : p + t - (q + t) = p - q := by ext <;> dsimp <;> ring
  rw [h]

/-- Claim C4: after the aligner's translation the coordinating atom sits
exactly at the solved position; the optimized rotation, applied about that
position, leaves it there; and the final instance is a rigid motion of the
template — every pairwise distance is preserved by the translation and by the
`Rz·Ry·Rx` rotation. -/
theorem alignment_and_rotation_rigid (metalPos : List Vec3) (cIdx : ℕ)
    (optimal : Vec3) (θx θy θz : ℝ) (i j : ℕ)
    (hc : cIdx < metalPos.length) (hi : i < metalPos.length)
    (hj : j < metalPos.length) :
    getPos (translatedPositions metalPos cIdx optimal) cIdx = optimal ∧
    rotateAbout (Rmat θx θy θz) optimal optimal = optimal ∧
    getPos ((translatedPositions metalPos cIdx optimal).map
      (rotateAbout (Rmat θx θy θz) optimal)) cIdx = optimal ∧
    vdist
      (getPos ((translatedPositions metalPos cIdx optimal).map
        (rotateAbout (Rmat θx θy θz) optimal)) i)
      (getPos ((translatedPositions metalPos cIdx optimal).map
        (rotateAbout (Rmat θx θy θz) optimal)) j) =
      vdist (getPos metalPos i) (getPos metalPos j) := by
  have hlen : (translatedPositions metalPos cIdx optimal).length = metalPos.length := by
    unfold translatedPositions
    simp
  have htr : getPos (translatedPositions metalPos cIdx optimal) cIdx = optimal := by
    unfold translatedPositions
    rw [getPos_map_of_lt hc]
    ext <;> dsimp <;> ring
  have htri : ∀ k, k < metalPos.length →
      getPos (translatedPositions metalPos cIdx optimal) k =
        getPos metalPos k + (optimal - getPos metalPos cIdx) := by
    intro k hk
    unfold translatedPositions
    rw [getPos_map_of_lt hk]
  refine ⟨htr, rotateAbout_center _ _, ?_, ?_⟩
  · rw [getPos_map_of_lt (by rw [hlen]; exact hc), htr]
    exact rotateAbout_center _ _
  · rw [getPos_map_of_lt (by rw [hlen]; exact hi),
      getPos_map_of_lt (by rw [hlen]; exact hj),
      vdist_rotateAbout _ (normSq_mulVec_Rmat θx θy θz) _ _ _,
      htri i hi, htri j hj, vdist_translate]

/-- Witness for C4 at a concrete 2-atom template, the zero rotation and a
concrete target position. -/
theorem alignment_and_rotation_rigid_witness :
    getPos (translatedPositions [⟨0, 0, 0⟩, ⟨1, 0, 0⟩] 0 ⟨1, 2, 3⟩) 0 = ⟨1, 2, 3⟩ ∧
    rotateAbout (Rmat 0 0 0) ⟨1, 2, 3⟩ ⟨1, 2, 3⟩ = ⟨1, 2, 3⟩ ∧
    getPos ((translatedPositions [⟨0, 0, 0⟩, ⟨1, 0, 0⟩] 0 ⟨1, 2, 3⟩).map
      (rotateAbout (Rmat 0 0 0) ⟨1, 2, 3⟩)) 0 = ⟨1, 2, 3⟩ ∧
    vdist
      (getPos ((translatedPositions [⟨0, 0, 0⟩, ⟨1, 0, 0⟩] 0 ⟨1, 2, 3⟩).map
        (rotateAbout (Rmat 0 0 0) ⟨1, 2, 3⟩)) 0)
      (getPos ((translatedPositions [⟨0, 0, 0⟩, ⟨1, 0, 0⟩] 0 ⟨1, 2, 3⟩).map
        (rotateAbout (Rmat 0 0 0) ⟨1, 2, 3⟩)) 1) =
      vdist (getPos [⟨0, 0, 0⟩, ⟨1, 0, 0⟩] 0) (getPos [⟨0, 0, 0⟩, ⟨1, 0, 0⟩] 1) :=
  alignment_and_rotation_rigid [⟨0, 0, 0⟩, ⟨1, 0, 0⟩] 0 ⟨1, 2, 3⟩ 0 0 0 0 1
    (by decide) (by decide) (by decide)

/-! ## C6: the position objective and the fixed seeds -/

/-- The embedding of a 3-vector into Mathlib's Euclidean 3-space. -/
noncomputable def toEuc (v : Vec3) : EuclideanSpace ℝ (Fin 3) := ![v.x, v.y, v.z]

theorem vnorm_eq_dist (p q : Vec3) : vnorm (p - q) = dist (toEuc p) (toEuc q) := by
  rw [EuclideanSpace.dist_eq]
  unfold toEuc vnorm normSq
  congr 1
  rw [Fin.sum_univ_three]
  simp only [Real.dist_eq, Matrix.cons_val_zero, Matrix.cons_val_one,
    Matrix.head_cons, Matrix.cons_val_two, Matrix.tail_cons, sq_abs]
  simp [Vec3.sub_x, Vec3.sub_y, Vec3.sub_z]

/-- Claim C6: the position solver's objective at a scalar `s` is the summed
squared deviation of the Euclidean distances from the site atoms to
`site_centroid + s • direction` from the bond distance; the 1-D optimization
is seeded at `s = bond_distance` and the rotation optimization at the zero
angle vector, each invoked once per site inside `siteStep`. -/
theorem position_objective_and_seeds (O : Oracles) (sitePos : List Vec3)
    (cen dir : Vec3) (bond : ℝ) (ligPos : List Vec3) (site : List ℕ)
    (translated : List Vec3) (optimal : Vec3) (cIdx : ℕ)
    (prevs : List (List Vec3)) :
    (∀ s : ℝ, position_objective_function sitePos cen dir bond s =
      ((sitePos.map
        (fun p => (dist (toEuc p) (toEuc (cen + s • dir)) - bond) ^ 2)).sum)) ∧
    solvedScale O bond ligPos site =
      O.posOpt bond
        (position_objective_function (sitePositions ligPos site)
          (siteCentroid ligPos site) (directionVector ligPos site) bond) ∧
    optimizedAngles O translated optimal cIdx ligPos prevs =
      O.rotOpt (0, 0, 0)
        (rotation_objective_function translated optimal cIdx ligPos prevs) := by
  refine ⟨?_, rfl, rfl⟩
  intro s
  unfold position_objective_function
  simp only [vnorm_eq_dist]

/-- Witness for C6 at concrete data. -/
theorem position_objective_and_seeds_witness :
    (∀ s : ℝ, position_objective_function [⟨1, 0, 0⟩] ⟨0, 0, 0⟩ ⟨0, 0, 1⟩ 1 s =
      (([⟨1, 0, 0⟩] : List Vec3).map
        (fun p => (dist (toEuc p) (toEuc (⟨0, 0, 0⟩ + s • ⟨0, 0, 1⟩)) - 1) ^ 2)).sum) ∧
    solvedScale ⟨fun s _ => s, fun s _ => s, fun _ => none⟩ 1 [⟨1, 0, 0⟩] [0] =
      Oracles.posOpt ⟨fun s _ => s, fun s _ => s, fun _ => none⟩ 1
        (position_objective_function (sitePositions [⟨1, 0, 0⟩] [0])
          (siteCentroid [⟨1, 0, 0⟩] [0]) (directionVector [⟨1, 0, 0⟩] [0]) 1) ∧
    optimizedAngles ⟨fun s _ => s, fun s _ => s, fun _ => none⟩ [] ⟨0, 0, 0⟩ 0 [] [] =
      Oracles.rotOpt ⟨fun s _ => s, fun s _ => s, fun _ => none⟩ (0, 0, 0)
        (rotation_objective_function [] ⟨0, 0, 0⟩ 0 [] []) :=
  position_objective_and_seeds ⟨fun s _ => s, fun s _ => s, fun _ => none⟩
    [⟨1, 0, 0⟩] ⟨0, 0, 0⟩ ⟨0, 0, 1⟩ 1 [⟨1, 0, 0⟩] [0] [] ⟨0, 0, 0⟩ 0 []

/-! ## C10: degenerate templates fail at the hull, before any placement -/

/-- Claim C10: if the hull oracle models Qhull (raising on every input whose
affine span is not 3-dimensional) and the metal template is degenerate, then
any call with at least one bonding site fails with the hull error — not the
steric-clash error — before any cluster is placed; contrapositively, a
full-dimensional template is a precondition of every successful placement. -/
theorem degenerate_template_hull_failure (O : Oracles) (lig metal : Atoms)
    (site : List ℕ) (rest : List (List ℕ)) (bond : ℝ)
    (hO : ∀ ps, ¬ FullDim3 ps → O.hullSimplices ps = none)
    (hdeg : ¬ FullDim3 metal.positions) :
    ligand_metal_docking O lig metal (site :: rest) bond = .error .hullError := by
  unfold ligand_metal_docking processSites siteStep
  rw [hO _ hdeg]
  rfl

/-- Witness for C10: a 3-atom collinear template with an oracle that always
reports degeneracy. -/
theorem degenerate_template_hull_failure_witness :
    ligand_metal_docking ⟨fun s _ => s, fun s _ => s, fun _ => none⟩
      ⟨[6], [⟨0, 0, 0⟩]⟩ ⟨[30, 30, 30], [⟨0, 0, 0⟩, ⟨0, 0, 1⟩, ⟨0, 0, 2⟩]⟩
      [[0]] 1 = .error .hullError :=
  degenerate_template_hull_failure _ _ _ _ _ _ (fun _ _ => rfl)
    (notFullDim3_of_zaxis (by
      intro p hp
      fin_cases hp <;> exact ⟨rfl, rfl⟩))

/-! ## Characterizations of the main loop -/

/-- A site clashes in a given accumulator state: the hull succeeds and some
non-coordinating atom of the optimized instance is strictly closer than the
bond distance to the pooled ligand and previous metal positions. -/
noncomputable def SiteClashP (O : Oracles) (bond : ℝ) (ligPos : List Vec3)
    (metal : Atoms) (prevs : List (List Vec3)) (site : List ℕ) : Prop :=
  ∃ simpl, O.hullSimplices metal.positions = some simpl ∧
    ClashAt bond ligPos prevs (siteNonCoord O bond ligPos metal prevs site simpl)

theorem siteStep_hull_none {O : Oracles} {bond : ℝ} {ligPos : List Vec3}
    {metal : Atoms} {st : Atoms × List (List Vec3)} {site : List ℕ}
    (h : O.hullSimplices metal.positions = none) :
    siteStep O bond ligPos metal st site = .error .hullError := by
  unfold siteStep
  rw [h]

theorem siteStep_hull_some {O : Oracles} {bond : ℝ} {ligPos : List Vec3}
    {metal : Atoms} {st : Atoms × List (List Vec3)} {site : List ℕ}
    {simpl : List (List ℕ)} (h : O.hullSimplices metal.positions = some simpl) :
    siteStep O bond ligPos metal st site =
      if ClashAt bond ligPos st.2 (siteNonCoord O bond ligPos metal st.2 site simpl)
      then .error .stericClash
      else .ok (⟨st.1.symbols ++ metal.symbols,
                 st.1.positions ++ siteFinalPositions O bond ligPos metal st.2 site simpl⟩,
                st.2 ++ [siteNonCoord O bond ligPos metal st.2 site simpl]) := by
  unfold siteStep
  rw [h]

theorem siteStep_eq_error_clash_iff {O : Oracles} {bond : ℝ} {ligPos : List Vec3}
    {metal : Atoms} {st : Atoms × List (List Vec3)} {site : List ℕ} :
    siteStep O bond ligPos metal st site = .error .stericClash ↔
      SiteClashP O bond ligPos metal st.2 site := by
  constructor
  · intro h
    cases hh : O.hullSimplices metal.positions with
    | none => rw [siteStep_hull_none hh] at h; simp at h
    | some simpl =>
      rw [siteStep_hull_some hh] at h
      by_cases hc : ClashAt bond ligPos st.2 (siteNonCoord O bond ligPos metal st.2 site simpl)
      · exact ⟨simpl, hh, hc⟩
      · rw [if_neg hc] at h
        simp at h
  · rintro ⟨simpl, hh, hc⟩
    rw [siteStep_hull_some hh, if_pos hc]

theorem siteStep_eq_ok_iff {O : Oracles} {bond : ℝ} {ligPos : List Vec3}
    {metal : Atoms} {st st' : Atoms × List (List Vec3)} {site : List ℕ} :
    siteStep O bond ligPos metal st site = .ok st' ↔
      ∃ simpl, O.hullSimplices metal.positions = some simpl ∧
        ¬ ClashAt bond ligPos st.2 (siteNonCoord O bond ligPos metal st.2 site simpl) ∧
        st' = (⟨st.1.symbols ++ metal.symbols,
                st.1.positions ++ siteFinalPositions O bond ligPos metal st.2 site simpl⟩,
               st.2 ++ [siteNonCoord O bond ligPos metal st.2 site simpl]) := by
  constructor
  · intro h
    cases hh : O.hullSimplices metal.positions with
    | none => rw [siteStep_hull_none hh] at h; simp at h
    | some simpl =>
      rw [siteStep_hull_some hh] at h
      by_cases hc : ClashAt bond ligPos st.2 (siteNonCoord O bond ligPos metal st.2 site simpl)
      · rw [if_pos hc] at h; simp at h
      · rw [if_neg hc] at h
        exact ⟨simpl, rfl, hc, ((Except.ok.injEq _ _).mp h).symm⟩
  · rintro ⟨simpl, hh, hc, rfl⟩
    rw [siteStep_hull_some hh, if_neg hc]

theorem processSites_nil {O : Oracles} {bond : ℝ} {ligPos : List Vec3}
    {metal : Atoms} {st : Atoms × List (List Vec3)} :
    processSites O bond ligPos metal st [] = .ok st := rfl

theorem processSites_cons {O : Oracles} {bond : ℝ} {ligPos : List Vec3}
    {metal : Atoms} {st : Atoms × List (List Vec3)} {site : List ℕ}
    {rest : List (List ℕ)} :
    processSites O bond ligPos metal st (site :: rest) =
      match siteStep O bond ligPos metal st site with
      | .error e => .error e
      | .ok st₁ => processSites O bond ligPos metal st₁ rest := rfl

/-- The loop returns the steric-clash error exactly when the site list splits
as `pre ++ site :: post` with the whole of `pre` succeeding and `site`
clashing in the state reached after `pre`. -/
theorem processSites_clash_iff (O : Oracles) (bond : ℝ) (ligPos : List Vec3)
    (metal : Atoms) :
    ∀ (sites : List (List ℕ)) (st : Atoms × List (List Vec3)),
      processSites O bond ligPos metal st sites = .error .stericClash ↔
        ∃ pre site post st', sites = pre ++ site :: post ∧
          processSites O bond ligPos metal st pre = .ok st' ∧
          SiteClashP O bond ligPos metal st'.2 site := by
  intro sites
  induction sites with
  | nil =>
    intro st
    constructor
    · intro h
      cases h
    · rintro ⟨pre, site, post, st', hdec, -, -⟩
      cases pre <;> simp at hdec
  | cons s rest ih =>
    intro st
    rw [processSites_cons]
    cases hs : siteStep O bond ligPos metal st s with
    | error e =>
      simp only [hs]
      constructor
      · intro h
        have he : e = .stericClash := by
          cases e
          · simp at h
          · rfl
        subst he
        exact ⟨[], s, rest, st, rfl, processSites_nil,
          siteStep_eq_error_clash_iff.mp hs⟩
      · rintro ⟨pre, site, post, st', hdec, hpre, hcl⟩
        cases pre with
        | nil =>
          simp only [List.nil_append, List.cons.injEq] at hdec
          obtain ⟨rfl, rfl⟩ := hdec
          have hst : st = st' := by
            rw [processSites_nil] at hpre
            simpa using hpre
          subst hst
          have h' := siteStep_eq_error_clash_iff.mpr hcl
          rw [hs] at h'
          rw [(Except.error.injEq _ _).mp h']
        | cons p pre' =>
          simp only [List.cons_append, List.cons.injEq] at hdec
          obtain ⟨rfl, -⟩ := hdec
          rw [processSites_cons, hs] at hpre
          simp at hpre
    | ok st₁ =>
      simp only [hs]
      rw [ih st₁]
      constructor
      · rintro ⟨pre', site, post, st', hdec, hpre, hcl⟩
        refine ⟨s :: pre', site, post, st', by rw [hdec]; rfl, ?_, hcl⟩
        rw [processSites_cons, hs]
        exact hpre
      · rintro ⟨pre, site, post, st', hdec, hpre, hcl⟩
        cases pre with
        | nil =>
          simp only [List.nil_append, List.cons.injEq] at hdec
          obtain ⟨rfl, rfl⟩ := hdec
          have hst : st = st' := by
            rw [processSites_nil] at hpre
            simpa using hpre
          subst hst
          have h' := siteStep_eq_error_clash_iff.mpr hcl
          rw [hs] at h'
          simp at h'
        | cons p pre' =>
          simp only [List.cons_append, List.cons.injEq] at hdec
          obtain ⟨rfl, hrest⟩ := hdec
          rw [processSites_cons, hs] at hpre
          exact ⟨pre', site, post, st', hrest, hpre, hcl⟩

theorem except_map_eq_error_iff {α β : Type} (f : α → β) (x : Except DockError α)
    (e : DockError) : x.map f = .error e ↔ x = .error e := by
  cases x <;> simp [Except.map]

/-- Claim C2: `ligand_metal_docking` raises the steric-clash error iff some
site, in caller order, clashes after the optimized rotation in the state
accumulated by the successful earlier sites; the error carries no structure,
and the outcome is independent of every site after the clashing one (no later
site is processed). -/
theorem stericClash_iff_site_clash (O : Oracles) (lig metal : Atoms)
    (sites : List (List ℕ)) (bond : ℝ) :
    (ligand_metal_docking O lig metal sites bond = .error .stericClash ↔
      ∃ pre site post st', sites = pre ++ site :: post ∧
        processSites O bond lig.positions metal (lig, []) pre = .ok st' ∧
        SiteClashP O bond lig.positions metal st'.2 site) ∧
    (∀ pre site st',
      processSites O bond lig.positions metal (lig, []) pre = .ok st' →
      SiteClashP O bond lig.positions metal st'.2 site →
      ∀ post, ligand_metal_docking O lig metal (pre ++ site :: post) bond =
        .error .stericClash) := by
  constructor
  · unfold ligand_metal_docking
    rw [except_map_eq_error_iff]
    exact processSites_clash_iff O bond lig.positions metal sites (lig, [])
  · intro pre site st' hpre hcl post
    unfold ligand_metal_docking
    rw [except_map_eq_error_iff]
    exact (processSites_clash_iff O bond lig.positions metal
      (pre ++ site :: post) (lig, [])).mpr ⟨pre, site, post, st', rfl, hpre, hcl⟩

/-- Witness for C2 at concrete arguments. -/
theorem stericClash_iff_site_clash_witness :
    (ligand_metal_docking ⟨fun s _ => s, fun s _ => s, fun _ => none⟩
        ⟨[6], [⟨0, 0, 0⟩]⟩ ⟨[30], [⟨0, 0, 0⟩]⟩ [[0]] 1 = .error .stericClash ↔
      ∃ pre site post st', [[0]] = pre ++ site :: post ∧
        processSites ⟨fun s _ => s, fun s _ => s, fun _ => none⟩ 1
          [⟨0, 0, 0⟩] ⟨[30], [⟨0, 0, 0⟩]⟩ (⟨[6], [⟨0, 0, 0⟩]⟩, []) pre = .ok st' ∧
        SiteClashP ⟨fun s _ => s, fun s _ => s, fun _ => none⟩ 1
          [⟨0, 0, 0⟩] ⟨[30], [⟨0, 0, 0⟩]⟩ st'.2 site) ∧
    (∀ pre site st',
      processSites ⟨fun s _ => s, fun s _ => s, fun _ => none⟩ 1
        [⟨0, 0, 0⟩] ⟨[30], [⟨0, 0, 0⟩]⟩ (⟨[6], [⟨0, 0, 0⟩]⟩, []) pre = .ok st' →
      SiteClashP ⟨fun s _ => s, fun s _ => s, fun _ => none⟩ 1
        [⟨0, 0, 0⟩] ⟨[30], [⟨0, 0, 0⟩]⟩ st'.2 site →
      ∀ post, ligand_metal_docking ⟨fun s _ => s, fun s _ => s, fun _ => none⟩
        ⟨[6], [⟨0, 0, 0⟩]⟩ ⟨[30], [⟨0, 0, 0⟩]⟩ (pre ++ site :: post) 1 =
        .error .stericClash) :=
  stericClash_iff_site_clash ⟨fun s _ => s, fun s _ => s, fun _ => none⟩
    ⟨[6], [⟨0, 0, 0⟩]⟩ ⟨[30], [⟨0, 0, 0⟩]⟩ [[0]] 1

/-! ## C9: the layout of the combined structure -/

theorem siteFinalPositions_length (O : Oracles) (bond : ℝ) (ligPos : List Vec3)
    (metal : Atoms) (prevs : List (List Vec3)) (site : List ℕ)
    (simpl : List (List ℕ)) :
    (siteFinalPositions O bond ligPos metal prevs site simpl).length =
      metal.positions.length := by
  unfold siteFinalPositions translatedPositions
  simp

theorem flatten_length_uniform {α : Type} {m : ℕ} :
    ∀ {blocks : List (List α)}, (∀ b ∈ blocks, b.length = m) →
      blocks.flatten.length = blocks.length * m := by
  intro blocks
  induction blocks with
  | nil => intro _; simp
  | cons b bs ih =>
    intro hb
    simp only [List.flatten_cons, List.length_append, List.length_cons,
      ih (fun c hc => hb c (List.mem_cons_of_mem _ hc)),
      hb b (List.mem_cons_self _ _)]
    ring

theorem flatten_block {α : Type} {m : ℕ} :
    ∀ {blocks : List (List α)}, (∀ b ∈ blocks, b.length = m) →
      ∀ k, k < blocks.length →
        (blocks.flatten.drop (k * m)).take m = blocks.getD k [] := by
  intro blocks
  induction blocks with
  | nil =>
    intro _ k hk
    cases hk
  | cons b bs ih =>
    intro hb k hk
    cases k with
    | zero =>
      have hlb : b.length = m := hb b (List.mem_cons_self _ _)
      simp only [List.flatten_cons, Nat.zero_mul, List.drop_zero, List.getD,
        List.getElem?_cons_zero, Option.getD_some]
      rw [← hlb]
      exact List.take_left _ _
    | succ k' =>
      have hlb : b.length = m := hb b (List.mem_cons_self _ _)
      have hstep : (k' + 1) * m = b.length + k' * m := by rw [hlb]; ring
      simp only [List.flatten_cons, hstep, List.drop_append]
      exact ih (fun c hc => hb c (List.mem_cons_of_mem _ hc)) k'
        (Nat.lt_of_succ_lt_succ (by simpa using hk))

/-- Each successful run of the loop appends one block of final positions per
site (in site order) and one copy of the template's species list per site;
moreover block `k` is exactly the final positions computed for the `k`-th
caller-supplied site in the state accumulated by the first `k` sites. -/
theorem processSites_ok_blocks {O : Oracles} {bond : ℝ} {ligPos : List Vec3}
    {metal : Atoms} :
    ∀ {sites : List (List ℕ)} {st st' : Atoms × List (List Vec3)},
      processSites O bond ligPos metal st sites = .ok st' →
      ∃ blocks : List (List Vec3),
        blocks.length = sites.length ∧
        (∀ b ∈ blocks, b.length = metal.positions.length) ∧
        st'.1.positions = st.1.positions ++ blocks.flatten ∧
        st'.1.symbols =
          st.1.symbols ++ (List.replicate sites.length metal.symbols).flatten ∧
        ∀ k, k < sites.length →
          ∃ stk simpl,
            processSites O bond ligPos metal st (sites.take k) = .ok stk ∧
            O.hullSimplices metal.positions = some simpl ∧
            blocks.getD k [] =
              siteFinalPositions O bond ligPos metal stk.2 (sites.getD k []) simpl := by
  intro sites
  induction sites with
  | nil =>
    intro st st' h
    rw [processSites_nil] at h
    obtain rfl : st = st' := by simpa using h
    refine ⟨[], by simp, by simp, by simp, by simp, ?_⟩
    intro k hk
    exact absurd hk (by simp)
  | cons s rest ih =>
    intro st st' h
    rw [processSites_cons] at h
    cases hs : siteStep O bond ligPos metal st s with
    | error e => rw [hs] at h; simp at h
    | ok st₁ =>
      rw [hs] at h
      simp only [] at h
      obtain ⟨simpl, hhull, -, hshape⟩ := siteStep_eq_ok_iff.mp hs
      obtain ⟨blocks, hlen, hunif, hpos, hsym, hper⟩ := ih h
      refine ⟨siteFinalPositions O bond ligPos metal st.2 s simpl :: blocks,
        by simp [hlen], ?_, ?_, ?_, ?_⟩
      · intro b hb
        rcases List.mem_cons.mp hb with rfl | hb'
        · exact siteFinalPositions_length _ _ _ _ _ _ _
        · exact hunif b hb'
      · rw [hpos, hshape]
        simp [List.append_assoc]
      · rw [hsym, hshape]
        simp [List.append_assoc, List.replicate_succ]
      · intro k hk
        cases k with
        | zero => exact ⟨st, simpl, processSites_nil, hhull, rfl⟩
        | succ k' =>
          have hk' : k' < rest.length := by simpa using hk
          obtain ⟨stk, simpl', hproc, hhull', hblock⟩ := hper k' hk'
          refine ⟨stk, simpl', ?_, hhull', ?_⟩
          · rw [show (s :: rest).take (k' + 1) = s :: rest.take k' from rfl,
              processSites_cons, hs]
            exact hproc
          · simpa using hblock

/-- Claim C9: on success the combined structure is the ligand's atoms followed
by one cluster instance per bonding site, in caller order; the atom count is
`len(ligand) + n_sites * len(template)`; and the contiguous block starting at
`len(ligand) + k * len(template)` is exactly the instance placed for the
`k`-th caller-supplied site — the final positions computed for `sites.getD k`
in the state accumulated by the first `k` sites. -/
theorem combined_structure_layout (O : Oracles) (lig metal : Atoms)
    (sites : List (List ℕ)) (bond : ℝ) (out : Atoms)
    (h : ligand_metal_docking O lig metal sites bond = .ok out) :
    ∃ blocks : List (List Vec3),
      blocks.length = sites.length ∧
      (∀ b ∈ blocks, b.length = metal.positions.length) ∧
      out.positions = lig.positions ++ blocks.flatten ∧
      out.symbols = lig.symbols ++ (List.replicate sites.length metal.symbols).flatten ∧
      out.positions.length =
        lig.positions.length + sites.length * metal.positions.length ∧
      (∀ k, k < sites.length →
        (out.positions.drop (lig.positions.length + k * metal.positions.length)).take
            metal.positions.length = blocks.getD k []) ∧
      ∀ k, k < sites.length →
        ∃ stk simpl,
          processSites O bond lig.positions metal (lig, []) (sites.take k) = .ok stk ∧
          O.hullSimplices metal.positions = some simpl ∧
          (out.positions.drop (lig.positions.length + k * metal.positions.length)).take
              metal.positions.length =
            siteFinalPositions O bond lig.positions metal stk.2 (sites.getD k []) simpl := by
  unfold ligand_metal_docking at h
  cases hps : processSites O bond lig.positions metal (lig, []) sites with
  | error e => rw [hps] at h; simp [Except.map] at h
  | ok st' =>
    rw [hps] at h
    simp only [Except.map] at h
    obtain rfl : st'.1 = out := by simpa using h
    obtain ⟨blocks, hlen, hunif, hpos, hsym, hper⟩ := processSites_ok_blocks hps
    have hchunk : ∀ k, k < sites.length →
        (st'.1.positions.drop
            (lig.positions.length + k * metal.positions.length)).take
          metal.positions.length = blocks.getD k [] := by
      intro k hk
      rw [hpos, ← List.drop_drop]
      rw [List.drop_left]
      exact flatten_block hunif k (by rw [hlen]; exact hk)
    refine ⟨blocks, hlen, hunif, hpos, hsym, ?_, hchunk, ?_⟩
    · rw [hpos]
      simp [flatten_length_uniform hunif, hlen]
    · intro k hk
      obtain ⟨stk, simpl, hproc, hhull, hblock⟩ := hper k hk
      exact ⟨stk, simpl, hproc, hhull, (hchunk k hk).trans hblock⟩

/-! ## C1 (amended): clearance of every committed instance -/

theorem pooledMinDist_le_lig {ligPos : List Vec3} {prevs : List (List Vec3)}
    {q p : Vec3} (hp : p ∈ ligPos) :
    pooledMinDist ligPos prevs q ≤ vdist q p := by
  have hmem : vdist q p ∈ ligPos.map (vdist q) := List.mem_map_of_mem _ hp
  cases prevs with
  | nil => exact minD_le hmem
  | cons a l => exact le_trans (min_le_left _ _) (minD_le hmem)

theorem pooledMinDist_le_prev {ligPos : List Vec3} {prevs : List (List Vec3)}
    {q p : Vec3} (hp : p ∈ prevs.flatten) :
    pooledMinDist ligPos prevs q ≤ vdist q p := by
  have hmem : vdist q p ∈ prevs.flatten.map (vdist q) := List.mem_map_of_mem _ hp
  cases prevs with
  | nil => simp at hp
  | cons a l => exact le_trans (min_le_right _ _) (minD_le hmem)

/-- The clearance invariant on the accumulator: every atom recorded for an
instance is at least the bond distance from every ligand atom and from every
atom recorded for every earlier instance. -/
def GoodAcc (bond : ℝ) (ligPos : List Vec3) (prevs : List (List Vec3)) : Prop :=
  ∀ j, j < prevs.length → ∀ q ∈ prevs.getD j [],
    (∀ p ∈ ligPos, bond ≤ vdist q p) ∧
    (∀ i, i < j → ∀ p ∈ prevs.getD i [], bond ≤ vdist q p)

theorem getD_mem_flatten {prevs : List (List Vec3)} {i : ℕ} {p : Vec3}
    (hi : i < prevs.length) (hp : p ∈ prevs.getD i []) : p ∈ prevs.flatten := by
  refine List.mem_flatten.mpr ⟨prevs.getD i [], ?_, hp⟩
  rw [List.getD_eq_getElem _ _ hi]
  exact List.getElem_mem _

theorem GoodAcc_extend {bond : ℝ} {ligPos : List Vec3} {prevs : List (List Vec3)}
    {nc : List Vec3} (hg : GoodAcc bond ligPos prevs)
    (hnc : ¬ ClashAt bond ligPos prevs nc) :
    GoodAcc bond ligPos (prevs ++ [nc]) := by
  have hq : ∀ q ∈ nc, bond ≤ pooledMinDist ligPos prevs q := by
    intro q hqm
    by_contra hlt
    exact hnc ⟨q, hqm, lt_of_not_le hlt⟩
  intro j hj q hqm
  rw [List.length_append, List.length_cons, List.length_nil] at hj
  rcases Nat.lt_succ_iff_lt_or_eq.mp (by simpa using hj) with hj' | rfl
  · rw [List.getD_append _ _ _ _ hj'] at hqm
    obtain ⟨h1, h2⟩ := hg j hj' q hqm
    refine ⟨h1, ?_⟩
    intro i hi p hpm
    rw [List.getD_append _ _ _ _ (lt_trans hi hj')] at hpm
    exact h2 i hi p hpm
  · rw [List.getD_append_right _ _ _ _ (le_refl _), Nat.sub_self] at hqm
    simp only [List.getD, List.getElem?_cons_zero, Option.getD_some] at hqm
    refine ⟨?_, ?_⟩
    · intro p hp
      exact le_trans (hq q hqm) (pooledMinDist_le_lig hp)
    · intro i hi p hpm
      rw [List.getD_append _ _ _ _ hi] at hpm
      exact le_trans (hq q hqm) (pooledMinDist_le_prev (getD_mem_flatten hi hpm))

theorem processSites_preserves_GoodAcc {O : Oracles} {bond : ℝ} {ligPos : List Vec3}
    {metal : Atoms} :
    ∀ {sites : List (List ℕ)} {st st' : Atoms × List (List Vec3)},
      processSites O bond ligPos metal st sites = .ok st' →
      GoodAcc bond ligPos st.2 → GoodAcc bond ligPos st'.2 := by
  intro sites
  induction sites with
  | nil =>
    intro st st' h hg
    rw [processSites_nil] at h
    obtain rfl : st = st' := by simpa using h
    exact hg
  | cons s rest ih =>
    intro st st' h hg
    rw [processSites_cons] at h
    cases hs : siteStep O bond ligPos metal st s with
    | error e => rw [hs] at h; simp at h
    | ok st₁ =>
      rw [hs] at h
      simp only [] at h
      obtain ⟨simpl, -, hncl, hshape⟩ := siteStep_eq_ok_iff.mp hs
      refine ih h ?_
      rw [hshape]
      exact GoodAcc_extend hg hncl

/-- Claim C1, amended: whenever `ligand_metal_docking` returns normally, every
non-coordinating atom of every placed instance is at distance ≥ the bond
distance from every ligand atom and from every *non-coordinating* atom of
every earlier instance.  (Earlier instances' coordinating atoms are excluded:
the accumulator records only the rows that survive `np.delete`.) -/
theorem placed_nonCoord_clearance (O : Oracles) (lig metal : Atoms)
    (sites : List (List ℕ)) (bond : ℝ) (st' : Atoms × List (List Vec3))
    (h : processSites O bond lig.positions metal (lig, []) sites = .ok st') :
    ligand_metal_docking O lig metal sites bond = .ok st'.1 ∧
      GoodAcc bond lig.positions st'.2 := by
  constructor
  · unfold ligand_metal_docking
    rw [h]
    rfl
  · refine processSites_preserves_GoodAcc h ?_
    intro j hj
    simp at hj

/-! ## C8: the inputs are never mutated (store semantics) -/

theorem take_set_of_le {α : Type} (a : α) :
    ∀ (l : List α) (r n : ℕ), n ≤ r → (l.set r a).take n = l.take n := by
  intro l
  induction l with
  | nil => intro r n h; simp
  | cons b t ih =>
    intro r n h
    cases n with
    | zero => simp
    | succ n' =>
      cases r with
      | zero => exact absurd h (by omega)
      | succ r' =>
        show b :: (t.set r' a).take n' = b :: t.take n'
        exact congrArg _ (ih r' n' (Nat.succ_le_succ_iff.mp h))

theorem dockLoop_preserves_below {O : Oracles} {bond : ℝ} {ligPos : List Vec3}
    {metalRef combRef : ℕ} :
    ∀ (sites : List (List ℕ)) (σ : Store) (prevs : List (List Vec3)) (n : ℕ),
      n ≤ σ.cells.length → n ≤ combRef →
      ((dockLoop O bond ligPos metalRef combRef (σ, prevs) sites).1).cells.take n =
        σ.cells.take n := by
  intro sites
  induction sites with
  | nil =>
    intro σ prevs n h1 h2
    rfl
  | cons s rest ih =>
    intro σ prevs n h1 h2
    rw [dockLoop]
    cases hh : (Oracles.hullSimplices O) ((readA σ metalRef).positions) with
    | none => simp only [hh]
    | some simpl =>
      simp only [hh]
      by_cases hc : ClashAt bond ligPos prevs
        (siteNonCoord O bond ligPos (readA σ metalRef) prevs s simpl)
      · rw [if_pos hc]
        exact List.take_append_of_le_length h1
      · rw [if_neg hc]
        have hlen : n ≤ (writeA (writeA (allocA σ (readA σ metalRef)).1
            (allocA σ (readA σ metalRef)).2
            ⟨(readA σ metalRef).symbols,
             siteFinalPositions O bond ligPos (readA σ metalRef) prevs s simpl⟩)
            combRef
            ⟨(readA (writeA (allocA σ (readA σ metalRef)).1
                (allocA σ (readA σ metalRef)).2
                ⟨(readA σ metalRef).symbols,
                 siteFinalPositions O bond ligPos (readA σ metalRef) prevs s simpl⟩)
                combRef).symbols ++ (readA σ metalRef).symbols,
             (readA (writeA (allocA σ (readA σ metalRef)).1
                (allocA σ (readA σ metalRef)).2
                ⟨(readA σ metalRef).symbols,
                 siteFinalPositions O bond ligPos (readA σ metalRef) prevs s simpl⟩)
                combRef).positions ++
               siteFinalPositions O bond ligPos (readA σ metalRef) prevs s simpl⟩).cells.length := by
          simp [writeA, allocA]
          omega
        rw [ih _ _ n hlen h2]
        unfold writeA allocA
        rw [take_set_of_le _ _ _ _ h2,
          take_set_of_le _ _ _ _ (by simpa using h1),
          List.take_append_of_le_length h1]

/-- Claim C8: in the store semantics, `ligand_metal_docking` never writes to
any pre-existing cell — in particular the caller's ligand and metal-template
objects hold exactly the species and positions they held before the call,
whether it returns or raises; all placement work happens on freshly allocated
copies. -/
theorem inputs_never_mutated (O : Oracles) (σ0 : Store) (ligRef metalRef : ℕ)
    (sites : List (List ℕ)) (bond : ℝ) :
    ((ligand_metal_docking_store O σ0 ligRef metalRef sites bond).1).cells.take
        σ0.cells.length = σ0.cells := by
  unfold ligand_metal_docking_store
  refine (dockLoop_preserves_below sites _ [] σ0.cells.length ?_ ?_).trans ?_
  · simp [allocA]
  · exact le_refl _
  · exact List.take_left _ _

/-- Witness for C8 at a concrete one-cell store. -/
theorem inputs_never_mutated_witness :
    ((ligand_metal_docking_store ⟨fun s _ => s, fun s _ => s, fun _ => none⟩
        ⟨[⟨[6], [⟨0, 0, 0⟩]⟩]⟩ 0 0 [[0]] 1).1).cells.take
      (Store.cells ⟨[⟨[6], [⟨0, 0, 0⟩]⟩]⟩).length =
      Store.cells ⟨[⟨[6], [⟨0, 0, 0⟩]⟩]⟩ :=
  inputs_never_mutated ⟨fun s _ => s, fun s _ => s, fun _ => none⟩
    ⟨[⟨[6], [⟨0, 0, 0⟩]⟩]⟩ 0 0 [[0]] 1

/-! ## A concrete successful run (one site, fallback direction)

Ligand: a single carbon atom at the origin; bonding site `[0]` covers the
whole ligand, so the direction falls back to the Z axis.  Metal template: a
unit tetrahedron.  The oracles return their seeds (a fixed point of both
optimizations) and the four facets of the tetrahedron. -/

/-- The facet list of a tetrahedron, as `hull.simplices`. -/
def simplT : List (List ℕ) := [[0, 1, 2], [0, 1, 3], [0, 2, 3], [1, 2, 3]]

/-- Oracles that return the seed of each optimization and the tetrahedron's
facets. -/
noncomputable def OW : Oracles :=
  ⟨fun seed _ => seed, fun seed _ => seed, fun _ => some simplT⟩

noncomputable def ligW : Atoms := ⟨[6], [⟨0, 0, 0⟩]⟩

noncomputable def metalW : Atoms :=
  ⟨[30, 30, 30, 30], [⟨0, 0, 0⟩, ⟨1, 0, 0⟩, ⟨0, 1, 0⟩, ⟨0, 0, 1⟩]⟩

/-- The expected final state: combined structure and accumulator. -/
noncomputable def stW : Atoms × List (List Vec3) :=
  (⟨[6, 30, 30, 30, 30], [⟨0, 0, 0⟩, ⟨0, 0, 1⟩, ⟨1, 0, 1⟩, ⟨0, 1, 1⟩, ⟨0, 0, 2⟩]⟩,
   [[⟨1, 0, 1⟩, ⟨0, 1, 1⟩, ⟨0, 0, 2⟩]])

theorem selectCoordIdx_simplT : selectCoordIdx simplT = 0 := by decide

theorem anglesOW (t : List Vec3) (c : Vec3) (i : ℕ) (l : List Vec3)
    (p : List (List Vec3)) : optimizedAngles OW t c i l p = (0, 0, 0) := rfl

theorem rotateAbout_Rmat_zero (c p : Vec3) : rotateAbout (Rmat 0 0 0) c p = p := by
  unfold rotateAbout Rmat mulVec matMul RxM RyM RzM
  ext <;> simp [Real.cos_zero, Real.sin_zero]

theorem dirW : directionVector [(⟨0, 0, 0⟩ : Vec3)] [0] = ⟨0, 0, 1⟩ := by
  have h1 : nonSiteIndices [(⟨0, 0, 0⟩ : Vec3)] [0] = [] := rfl
  unfold directionVector
  rw [if_pos h1]

theorem optW : optimalPosition OW 1 [(⟨0, 0, 0⟩ : Vec3)] [0] = ⟨0, 0, 1⟩ := by
  have hs : solvedScale OW 1 [(⟨0, 0, 0⟩ : Vec3)] [0] = 1 := rfl
  have hc : siteCentroid [(⟨0, 0, 0⟩ : Vec3)] [0] = ⟨0, 0, 0⟩ := by
    unfold siteCentroid centroid sitePositions getPos
    ext <;> simp
  unfold optimalPosition
  rw [hs, hc, dirW]
  ext <;> simp

theorem finalsW :
    siteFinalPositions OW 1 [(⟨0, 0, 0⟩ : Vec3)] metalW [] [0] simplT =
      [⟨0, 0, 1⟩, ⟨1, 0, 1⟩, ⟨0, 1, 1⟩, ⟨0, 0, 2⟩] := by
  simp only [siteFinalPositions, optW, anglesOW, selectCoordIdx_simplT]
  unfold translatedPositions getPos metalW
  simp [rotateAbout_Rmat_zero, Vec3.ext_iff]
  norm_num

theorem noClashW :
    ¬ ClashAt 1 [(⟨0, 0, 0⟩ : Vec3)] []
      [⟨1, 0, 1⟩, ⟨0, 1, 1⟩, ⟨0, 0, 2⟩] := by
  rintro ⟨q, hq, hlt⟩
  have hp : pooledMinDist [(⟨0, 0, 0⟩ : Vec3)] [] q = vdist q ⟨0, 0, 0⟩ := rfl
  rw [hp, vdist_lt_iff _ _ one_pos] at hlt
  fin_cases hq <;> norm_num [normSq] at hlt

theorem stepW :
    siteStep OW 1 [(⟨0, 0, 0⟩ : Vec3)] metalW (ligW, []) [0] = .ok stW := by
  have hh : OW.hullSimplices metalW.positions = some simplT := rfl
  rw [siteStep_hull_some hh]
  have hnc : siteNonCoord OW 1 [(⟨0, 0, 0⟩ : Vec3)] metalW (ligW, []).2 [0] simplT =
      [⟨1, 0, 1⟩, ⟨0, 1, 1⟩, ⟨0, 0, 2⟩] := by
    show siteNonCoord OW 1 [(⟨0, 0, 0⟩ : Vec3)] metalW [] [0] simplT = _
    unfold siteNonCoord
    rw [finalsW, selectCoordIdx_simplT]
    rfl
  have hfin : siteFinalPositions OW 1 [(⟨0, 0, 0⟩ : Vec3)] metalW (ligW, []).2 [0] simplT =
      [⟨0, 0, 1⟩, ⟨1, 0, 1⟩, ⟨0, 1, 1⟩, ⟨0, 0, 2⟩] := by
    show siteFinalPositions OW 1 [(⟨0, 0, 0⟩ : Vec3)] metalW [] [0] simplT = _
    exact finalsW
  rw [hnc, hfin]
  rw [if_neg (show ¬ ClashAt 1 [(⟨0, 0, 0⟩ : Vec3)] (ligW, []).2
    [⟨1, 0, 1⟩, ⟨0, 1, 1⟩, ⟨0, 0, 2⟩] from noClashW)]
  rfl

theorem procW : processSites OW 1 ligW.positions metalW (ligW, []) [[0]] = .ok stW := by
  rw [processSites_cons]
  rw [show siteStep OW 1 ligW.positions metalW (ligW, []) [0] = .ok stW from stepW]
  rfl

theorem runW : ligand_metal_docking OW ligW metalW [[0]] 1 = .ok stW.1 := by
  unfold ligand_metal_docking
  rw [procW]
  rfl

/-- Witness for C1 (amended) at the concrete successful run. -/
theorem placed_nonCoord_clearance_witness :
    ligand_metal_docking OW ligW metalW [[0]] 1 = .ok stW.1 ∧
      GoodAcc 1 ligW.positions stW.2 :=
  placed_nonCoord_clearance OW ligW metalW [[0]] 1 stW procW

/-- Witness for C9 at the concrete successful run. -/
theorem combined_structure_layout_witness :
    ∃ blocks : List (List Vec3),
      blocks.length = ([[0]] : List (List ℕ)).length ∧
      (∀ b ∈ blocks, b.length = metalW.positions.length) ∧
      stW.1.positions = ligW.positions ++ blocks.flatten ∧
      stW.1.symbols =
        ligW.symbols ++
          (List.replicate ([[0]] : List (List ℕ)).length metalW.symbols).flatten ∧
      stW.1.positions.length =
        ligW.positions.length +
          ([[0]] : List (List ℕ)).length * metalW.positions.length ∧
      (∀ k, k < ([[0]] : List (List ℕ)).length →
        (stW.1.positions.drop
            (ligW.positions.length + k * metalW.positions.length)).take
          metalW.positions.length = blocks.getD k []) ∧
      ∀ k, k < ([[0]] : List (List ℕ)).length →
        ∃ stk simpl,
          processSites OW 1 ligW.positions metalW (ligW, [])
            (([[0]] : List (List ℕ)).take k) = .ok stk ∧
          OW.hullSimplices metalW.positions = some simpl ∧
          (stW.1.positions.drop
              (ligW.positions.length + k * metalW.positions.length)).take
            metalW.positions.length =
            siteFinalPositions OW 1 ligW.positions metalW stk.2
              (([[0]] : List (List ℕ)).getD k []) simpl :=
  combined_structure_layout OW ligW metalW [[0]] 1 stW.1 runW

/-! ## A concrete two-site run refuting claim C1 as stated

Ligand: two carbons at `(0,0,0)` and `(0,0,10)`, sites `[0]` and `[1]`.
Template: coordinating atom at the origin with a long arm to `(0,0,-12)`.
Site 1 places its instance below the ligand with coordinating atom at
`(0,0,-1)`; site 2 places its instance above, and the tip of its long arm
lands exactly on the first instance's coordinating atom.  The steric check
passes (the accumulator holds only non-coordinating rows), so the call
returns normally although an atom pair at distance 0 < bond exists. -/

noncomputable def ligC : Atoms := ⟨[6, 6], [⟨0, 0, 0⟩, ⟨0, 0, 10⟩]⟩

noncomputable def metalC : Atoms :=
  ⟨[30, 30, 30, 30], [⟨0, 0, 0⟩, ⟨2, 0, 0⟩, ⟨0, 2, 0⟩, ⟨0, 0, -12⟩]⟩

noncomputable def st1C : Atoms × List (List Vec3) :=
  (⟨[6, 6, 30, 30, 30, 30],
    [⟨0, 0, 0⟩, ⟨0, 0, 10⟩, ⟨0, 0, -1⟩, ⟨2, 0, -1⟩, ⟨0, 2, -1⟩, ⟨0, 0, -13⟩]⟩,
   [[⟨2, 0, -1⟩, ⟨0, 2, -1⟩, ⟨0, 0, -13⟩]])

noncomputable def stC : Atoms × List (List Vec3) :=
  (⟨[6, 6, 30, 30, 30, 30, 30, 30, 30, 30],
    [⟨0, 0, 0⟩, ⟨0, 0, 10⟩, ⟨0, 0, -1⟩, ⟨2, 0, -1⟩, ⟨0, 2, -1⟩, ⟨0, 0, -13⟩,
     ⟨0, 0, 11⟩, ⟨2, 0, 11⟩, ⟨0, 2, 11⟩, ⟨0, 0, -1⟩]⟩,
   [[⟨2, 0, -1⟩, ⟨0, 2, -1⟩, ⟨0, 0, -13⟩],
    [⟨2, 0, 11⟩, ⟨0, 2, 11⟩, ⟨0, 0, -1⟩]])

theorem rawC1 : rawDirection [(⟨0, 0, 0⟩ : Vec3), ⟨0, 0, 10⟩] [0] = ⟨0, 0, -10⟩ := by
  unfold rawDirection
  rw [show nonSiteIndices [(⟨0, 0, 0⟩ : Vec3), ⟨0, 0, 10⟩] [0] = [1] from rfl]
  unfold siteCentroid centroid sitePositions getPos
  ext <;> norm_num

theorem vnorm_zneg10 : vnorm (⟨0, 0, -10⟩ : Vec3) = 10 := by
  have h : normSq (⟨0, 0, -10⟩ : Vec3) = 10 ^ 2 := by
    unfold normSq
    norm_num
  unfold vnorm
  rw [h, Real.sqrt_sq (by norm_num : (0:ℝ) ≤ 10)]

theorem dirC1 : directionVector [(⟨0, 0, 0⟩ : Vec3), ⟨0, 0, 10⟩] [0] = ⟨0, 0, -1⟩ := by
  have h1 : nonSiteIndices [(⟨0, 0, 0⟩ : Vec3), ⟨0, 0, 10⟩] [0] ≠ [] := by
    rw [show nonSiteIndices [(⟨0, 0, 0⟩ : Vec3), ⟨0, 0, 10⟩] [0] = [1] from rfl]
    simp
  have h2 : ¬ vnorm (rawDirection [(⟨0, 0, 0⟩ : Vec3), ⟨0, 0, 10⟩] [0]) < dirEps := by
    rw [rawC1, vnorm_zneg10]
    unfold dirEps
    norm_num
  unfold directionVector
  rw [if_neg h1]
  simp only [if_neg h2]
  rw [rawC1, vnorm_zneg10]
  ext <;> norm_num

theorem optC1 : optimalPosition OW 1 [(⟨0, 0, 0⟩ : Vec3), ⟨0, 0, 10⟩] [0] = ⟨0, 0, -1⟩ := by
  have hs : solvedScale OW 1 [(⟨0, 0, 0⟩ : Vec3), ⟨0, 0, 10⟩] [0] = 1 := rfl
  have hc : siteCentroid [(⟨0, 0, 0⟩ : Vec3), ⟨0, 0, 10⟩] [0] = ⟨0, 0, 0⟩ := by
    unfold siteCentroid centroid sitePositions getPos
    ext <;> simp
  unfold optimalPosition
  rw [hs, hc, dirC1]
  ext <;> simp

theorem finalsC1 :
    siteFinalPositions OW 1 [(⟨0, 0, 0⟩ : Vec3), ⟨0, 0, 10⟩] metalC [] [0] simplT =
      [⟨0, 0, -1⟩, ⟨2, 0, -1⟩, ⟨0, 2, -1⟩, ⟨0, 0, -13⟩] := by
  simp only [siteFinalPositions, optC1, anglesOW, selectCoordIdx_simplT]
  unfold translatedPositions getPos metalC
  simp [rotateAbout_Rmat_zero, Vec3.ext_iff]
  norm_num

theorem noClashC1 :
    ¬ ClashAt 1 [(⟨0, 0, 0⟩ : Vec3), ⟨0, 0, 10⟩] []
      [⟨2, 0, -1⟩, ⟨0, 2, -1⟩, ⟨0, 0, -13⟩] := by
  rintro ⟨q, hq, hlt⟩
  have hp : pooledMinDist [(⟨0, 0, 0⟩ : Vec3), ⟨0, 0, 10⟩] [] q =
      min (vdist q ⟨0, 0, 0⟩) (vdist q ⟨0, 0, 10⟩) := rfl
  rw [hp, min_lt_iff] at hlt
  fin_cases hq <;>
    rcases hlt with h | h <;>
    rw [vdist_lt_iff _ _ one_pos] at h <;>
    norm_num [normSq] at h

theorem step1C :
    siteStep OW 1 [(⟨0, 0, 0⟩ : Vec3), ⟨0, 0, 10⟩] metalC (ligC, []) [0] = .ok st1C := by
  have hh : OW.hullSimplices metalC.positions = some simplT := rfl
  rw [siteStep_hull_some hh]
  have hnc : siteNonCoord OW 1 [(⟨0, 0, 0⟩ : Vec3), ⟨0, 0, 10⟩] metalC (ligC, []).2 [0] simplT =
      [⟨2, 0, -1⟩, ⟨0, 2, -1⟩, ⟨0, 0, -13⟩] := by
    show siteNonCoord OW 1 [(⟨0, 0, 0⟩ : Vec3), ⟨0, 0, 10⟩] metalC [] [0] simplT = _
    unfold siteNonCoord
    rw [finalsC1, selectCoordIdx_simplT]
    rfl
  have hfin : siteFinalPositions OW 1 [(⟨0, 0, 0⟩ : Vec3), ⟨0, 0, 10⟩] metalC (ligC, []).2 [0] simplT =
      [⟨0, 0, -1⟩, ⟨2, 0, -1⟩, ⟨0, 2, -1⟩, ⟨0, 0, -13⟩] := by
    show siteFinalPositions OW 1 [(⟨0, 0, 0⟩ : Vec3), ⟨0, 0, 10⟩] metalC [] [0] simplT = _
    exact finalsC1
  rw [hnc, hfin]
  rw [if_neg (show ¬ ClashAt 1 [(⟨0, 0, 0⟩ : Vec3), ⟨0, 0, 10⟩] (ligC, []).2
    [⟨2, 0, -1⟩, ⟨0, 2, -1⟩, ⟨0, 0, -13⟩] from noClashC1)]
  rfl

theorem rawC2 : rawDirection [(⟨0, 0, 0⟩ : Vec3), ⟨0, 0, 10⟩] [1] = ⟨0, 0, 10⟩ := by
  unfold rawDirection
  rw [show nonSiteIndices [(⟨0, 0, 0⟩ : Vec3), ⟨0, 0, 10⟩] [1] = [0] from rfl]
  unfold siteCentroid centroid sitePositions getPos
  ext <;> norm_num

theorem vnorm_zpos10 : vnorm (⟨0, 0, 10⟩ : Vec3) = 10 := by
  have h : normSq (⟨0, 0, 10⟩ : Vec3) = 10 ^ 2 := by
    unfold normSq
    norm_num
  unfold vnorm
  rw [h, Real.sqrt_sq (by norm_num : (0:ℝ) ≤ 10)]

theorem dirC2 : directionVector [(⟨0, 0, 0⟩ : Vec3), ⟨0, 0, 10⟩] [1] = ⟨0, 0, 1⟩ := by
  have h1 : nonSiteIndices [(⟨0, 0, 0⟩ : Vec3), ⟨0, 0, 10⟩] [1] ≠ [] := by
    rw [show nonSiteIndices [(⟨0, 0, 0⟩ : Vec3), ⟨0, 0, 10⟩] [1] = [0] from rfl]
    simp
  have h2 : ¬ vnorm (rawDirection [(⟨0, 0, 0⟩ : Vec3), ⟨0, 0, 10⟩] [1]) < dirEps := by
    rw [rawC2, vnorm_zpos10]
    unfold dirEps
    norm_num
  unfold directionVector
  rw [if_neg h1]
  simp only [if_neg h2]
  rw [rawC2, vnorm_zpos10]
  ext <;> norm_num

theorem optC2 : optimalPosition OW 1 [(⟨0, 0, 0⟩ : Vec3), ⟨0, 0, 10⟩] [1] = ⟨0, 0, 11⟩ := by
  have hs : solvedScale OW 1 [(⟨0, 0, 0⟩ : Vec3), ⟨0, 0, 10⟩] [1] = 1 := rfl
  have hc : siteCentroid [(⟨0, 0, 0⟩ : Vec3), ⟨0, 0, 10⟩] [1] = ⟨0, 0, 10⟩ := by
    unfold siteCentroid centroid sitePositions getPos
    ext <;> simp
  unfold optimalPosition
  rw [hs, hc, dirC2]
  ext <;> norm_num

theorem finalsC2 :
    siteFinalPositions OW 1 [(⟨0, 0, 0⟩ : Vec3), ⟨0, 0, 10⟩] metalC
      [[⟨2, 0, -1⟩, ⟨0, 2, -1⟩, ⟨0, 0, -13⟩]] [1] simplT =
      [⟨0, 0, 11⟩, ⟨2, 0, 11⟩, ⟨0, 2, 11⟩, ⟨0, 0, -1⟩] := by
  simp only [siteFinalPositions, optC2, anglesOW, selectCoordIdx_simplT]
  unfold translatedPositions getPos metalC
  simp [rotateAbout_Rmat_zero, Vec3.ext_iff]
  norm_num

theorem noClashC2 :
    ¬ ClashAt 1 [(⟨0, 0, 0⟩ : Vec3), ⟨0, 0, 10⟩]
      [[⟨2, 0, -1⟩, ⟨0, 2, -1⟩, ⟨0, 0, -13⟩]]
      [⟨2, 0, 11⟩, ⟨0, 2, 11⟩, ⟨0, 0, -1⟩] := by
  rintro ⟨q, hq, hlt⟩
  have hp : pooledMinDist [(⟨0, 0, 0⟩ : Vec3), ⟨0, 0, 10⟩]
      [[⟨2, 0, -1⟩, ⟨0, 2, -1⟩, ⟨0, 0, -13⟩]] q =
      min (min (vdist q ⟨0, 0, 0⟩) (vdist q ⟨0, 0, 10⟩))
        (min (min (vdist q ⟨2, 0, -1⟩) (vdist q ⟨0, 2, -1⟩)) (vdist q ⟨0, 0, -13⟩)) := rfl
  rw [hp, min_lt_iff, min_lt_iff, min_lt_iff, min_lt_iff] at hlt
  fin_cases hq <;>
    rcases hlt with (h | h) | ((h | h) | h) <;>
    rw [vdist_lt_iff _ _ one_pos] at h <;>
    norm_num [normSq] at h

theorem step2C :
    siteStep OW 1 [(⟨0, 0, 0⟩ : Vec3), ⟨0, 0, 10⟩] metalC st1C [1] = .ok stC := by
  have hh : OW.hullSimplices metalC.positions = some simplT := rfl
  rw [siteStep_hull_some hh]
  have hnc : siteNonCoord OW 1 [(⟨0, 0, 0⟩ : Vec3), ⟨0, 0, 10⟩] metalC st1C.2 [1] simplT =
      [⟨2, 0, 11⟩, ⟨0, 2, 11⟩, ⟨0, 0, -1⟩] := by
    show siteNonCoord OW 1 [(⟨0, 0, 0⟩ : Vec3), ⟨0, 0, 10⟩] metalC
      [[⟨2, 0, -1⟩, ⟨0, 2, -1⟩, ⟨0, 0, -13⟩]] [1] simplT = _
    unfold siteNonCoord
    rw [finalsC2, selectCoordIdx_simplT]
    rfl
  have hfin : siteFinalPositions OW 1 [(⟨0, 0, 0⟩ : Vec3), ⟨0, 0, 10⟩] metalC st1C.2 [1] simplT =
      [⟨0, 0, 11⟩, ⟨2, 0, 11⟩, ⟨0, 2, 11⟩, ⟨0, 0, -1⟩] := by
    show siteFinalPositions OW 1 [(⟨0, 0, 0⟩ : Vec3), ⟨0, 0, 10⟩] metalC
      [[⟨2, 0, -1⟩, ⟨0, 2, -1⟩, ⟨0, 0, -13⟩]] [1] simplT = _
    exact finalsC2
  rw [hnc, hfin]
  rw [if_neg (show ¬ ClashAt 1 [(⟨0, 0, 0⟩ : Vec3), ⟨0, 0, 10⟩] st1C.2
    [⟨2, 0, 11⟩, ⟨0, 2, 11⟩, ⟨0, 0, -1⟩] from noClashC2)]
  rfl

theorem procC :
    processSites OW 1 ligC.positions metalC (ligC, []) [[0], [1]] = .ok stC := by
  rw [processSites_cons]
  rw [show siteStep OW 1 ligC.positions metalC (ligC, []) [0] = .ok st1C from step1C]
  show processSites OW 1 ligC.positions metalC st1C [[1]] = .ok stC
  rw [processSites_cons]
  rw [show siteStep OW 1 ligC.positions metalC st1C [1] = .ok stC from step2C]
  rfl

theorem runC : ligand_metal_docking OW ligC metalC [[0], [1]] 1 = .ok stC.1 := by
  unfold ligand_metal_docking
  rw [procC]
  rfl

/-- Counterexample to claim C1 as stated: the two-site call returns normally,
yet atom 9 of the output — a non-coordinating atom of the second placed
instance (offset 3 in its block, while the coordinating index is 0) — lies at
distance 0 < bond distance 1 from atom 2 of the output, the first instance's
*coordinating* atom.  The steric check never inspects earlier instances'
coordinating atoms because line 182 appends only the rows surviving
`np.delete` to `previous_metal_positions`. -/
theorem earlier_coordinating_atom_unprotected :
    ligand_metal_docking OW ligC metalC [[0], [1]] 1 = .ok stC.1 ∧
      vdist (getPos stC.1.positions 9) (getPos stC.1.positions 2) < 1 := by
  refine ⟨runC, ?_⟩
  rw [show getPos stC.1.positions 9 = ⟨0, 0, -1⟩ from rfl,
    show getPos stC.1.positions 2 = ⟨0, 0, -1⟩ from rfl,
    vdist_lt_iff _ _ one_pos]
  norm_num [normSq]

end Matterfold
